import Mathlib

/-! detach: attachment naming and the staging-and-commit protocol.

A shallow embedding of `detach.go`.  Go strings are byte sequences, so a string
is a list of bytes; `len`, indexing and slicing all count bytes.  The calls into
the operating system and into the mail parsers are recorded as a trace of
events, and whether a call succeeds is decided by an oracle that sees the whole
history, so every theorem about `process` holds for every behaviour of the
outside world.
-/

namespace Detach

/-! ## Strings -/

/-- One byte of a Go string. -/
abbrev Byte := Fin 256

/-- A Go `string`: an immutable sequence of bytes. -/
abbrev GoString := List Byte

/-- The bytes of an ASCII literal. -/
def ascii (s : String) : GoString :=
  s.toList.map fun c => ⟨c.toNat % 256, Nat.mod_lt _ (by decide)⟩

/-- The byte `'/'`, `os.PathSeparator` on Unix. -/
def Separator : Byte := 47

/-- The byte `'.'`. -/
def dot : Byte := 46

/-- The byte `'-'`. -/
def dash : Byte := 45

/-- Go's `os.IsPathSeparator` on Unix. -/
def IsPathSeparator (c : Byte) : Bool := c == Separator

/-- Go's `s[lo:hi]`. -/
def slice (s : GoString) (lo hi : Nat) : GoString := (s.drop lo).take (hi - lo)

/-- Go's `s[lo:]`. -/
def sliceFrom (s : GoString) (lo : Nat) : GoString := s.drop lo

/-! ## `path/filepath.Base` (Unix) -/

/-- The first loop of `filepath.Base`:
`for len(path) > 0 && os.IsPathSeparator(path[len(path)-1]) { path = path[0 : len(path)-1] }`. -/
def stripTrailingSeparators (path : GoString) : GoString :=
  (path.reverse.dropWhile IsPathSeparator).reverse

/-- The second loop of `filepath.Base` and the slice that follows it:
`i := len(path) - 1; for i >= 0 && !os.IsPathSeparator(path[i]) { i-- }; if i >= 0 { path = path[i+1:] }`:
what stands after the last separator, the whole path when it has none. -/
def lastElement (path : GoString) : GoString :=
  (path.reverse.takeWhile fun c => !IsPathSeparator c).reverse

/-- Go's `filepath.Base` on Unix (the volume name is always empty there). -/
def Base (path : GoString) : GoString :=
  if path = [] then [dot]
  else
    let path := lastElement (stripTrailingSeparators path)
    if path = [] then [Separator] else path

/-! ## `sanitizeFileName` -/

/-- Allow no more than `maxOriginalFileNameLength` characters from original file name. -/
def maxOriginalFileNameLength : Nat := 64

/-- The function `sanitizeFileName` of `detach.go`. -/
def sanitizeFileName (fn : GoString) : GoString :=
  let b := Base fn
  if b.length > maxOriginalFileNameLength then
    slice b 0 (maxOriginalFileNameLength / 2 - 1) ++ [dot, dot]
      ++ sliceFrom b (b.length - maxOriginalFileNameLength / 2 + 1)
  else b

/-! ## File names -/

/-- The byte of the decimal digit `d % 10`. -/
def digitByte (d : Nat) : Byte := ⟨48 + d % 10, by omega⟩

/-- The digit loop of `strconv.Itoa` for a non-negative number: the decimal digits of `n` are
put in front of `acc`, least significant first.  `fuel` bounds the number of digits. -/
def formatDigits : Nat → Nat → GoString → GoString
  | 0, _, acc => acc
  | fuel + 1, n, acc =>
    if n < 10 then digitByte n :: acc
    else formatDigits fuel (n / 10) (digitByte n :: acc)

/-- Go's `strconv.Itoa` on a non-negative `int`. -/
def Itoa (n : Nat) : GoString := formatDigits (n + 1) n []

/-- Go's `fmt.Sprintf("%04d", i)` for a non-negative `i`: the decimal digits of `i`, padded on
the left with `'0'` to a width of at least four. -/
def Sprintf04d (i : Nat) : GoString :=
  List.replicate (4 - (Itoa i).length) (digitByte 0) ++ Itoa i

/-- The job identifier of `process`:
`time.Now().Format("20060102-150405") + "-" + strconv.Itoa(os.Getpid())`; `now` is the
formatted time. -/
def mkJobId (now : GoString) (pid : Nat) : GoString := now ++ [dash] ++ Itoa pid

/-- The file name the extraction loop of `process` builds for the attachment at ordinal `i`
whose original name is `orig`:
`fn := jobId + "-" + fmt.Sprintf("%04d", i); if ofn := sanitizeFileName(orig); ofn != "" { fn += "-" + ofn }`. -/
def fileName (jobId : GoString) (i : Nat) (orig : GoString) : GoString :=
  let fn := jobId ++ [dash] ++ Sprintf04d i
  let ofn := sanitizeFileName orig
  if ofn ≠ [] then fn ++ [dash] ++ ofn else fn

/-! ## The outside world -/

/-- One attachment of the parsed message, as `FileName()` and `Content()` give it. -/
structure Attachment where
  FileName : GoString
  Content : GoString
  deriving DecidableEq

/-- The calls `process` makes into the operating system and the mail parsers.  A file handle is
named by the path it was created at. -/
inductive Call where
  | Mkdir (path : GoString) (perm : Nat)
  | ReadMessage
  | ParseMIMEBody
  | Create (path : GoString)
  | Write (path : GoString) (b : GoString)
  | Close (path : GoString)
  | Link (oldname newname : GoString)
  | Remove (path : GoString)
  | RemoveAll (path : GoString)
  deriving DecidableEq

/-- A call together with its outcome: `ok = true` when it returned a nil error. -/
structure Event where
  call : Call
  ok : Bool
  deriving DecidableEq

/-- Whether a call succeeds, given everything that happened before it. -/
abbrev Oracle := List Event → Call → Bool

/-- What `process` takes from its environment. -/
structure Env where
  /-- The outcome of every call. -/
  oracle : Oracle
  /-- Go's `filepath.Join` of two elements. -/
  Join : GoString → GoString → GoString
  /-- The value of `time.Now().Format("20060102-150405")`. -/
  now : GoString
  /-- The value of `os.Getpid()`. -/
  pid : Nat
  /-- The value of `mime.Attachments` when reading and parsing succeed. -/
  Attachments : List Attachment

/-- Perform one call: the oracle decides the outcome, the event is appended to the trace. -/
def Env.exec (E : Env) (tr : List Event) (c : Call) : Bool × List Event :=
  (E.oracle tr c, tr ++ [⟨c, E.oracle tr c⟩])

/-! ## `process` -/

def exOk : Nat := 0

def exTempFail : Nat := 75

/-- The function `cleanup` of `detach.go`: `os.RemoveAll(path)`, whose error is only logged. -/
def cleanup (E : Env) (path : GoString) (tr : List Event) : List Event :=
  (E.exec tr (.RemoveAll path)).2

/-- The extraction loop of `process`, `for i, a := range mime.Attachments`, from ordinal `i`
on.  `none` stands for `return exTempFail`; otherwise the loop ends with the slice `files`. -/
def extractLoop (E : Env) (jobId workDir : GoString) :
    Nat → List Attachment → List GoString → List Event → Option (List GoString) × List Event
  | _, [], files, tr => (some files, tr)
  | i, a :: rest, files, tr =>
    let fn := fileName jobId i a.FileName
    let files := files ++ [fn]
    let fp := E.Join workDir fn
    match E.exec tr (.Create fp) with
    | (false, tr) => (none, tr)
    | (true, tr) =>
      match E.exec tr (.Write fp a.Content) with
      | (false, tr) => (none, tr)
      | (true, tr) =>
        match E.exec tr (.Close fp) with
        | (false, tr) => (none, tr)
        | (true, tr) => extractLoop E jobId workDir (i + 1) rest files tr

/-- The promotion loop of `process`, `for _, fn := range files`.  `false` stands for
`return exTempFail`. -/
def promoteLoop (E : Env) (workDir destDir : GoString) :
    List GoString → List Event → Bool × List Event
  | [], tr => (true, tr)
  | fn :: rest, tr =>
    let src := E.Join workDir fn
    let dst := E.Join destDir fn
    match E.exec tr (.Link src dst) with
    | (false, tr) => (false, tr)
    | (true, tr) =>
      match E.exec tr (.Remove src) with
      | (false, tr) => (false, tr)
      | (true, tr) => promoteLoop E workDir destDir rest tr

/-- The body of `process` after `defer cleanup(workDir)`. -/
def processBody (E : Env) (jobId workDir destDir : GoString) (tr : List Event) :
    Nat × List Event :=
  match E.exec tr .ReadMessage with
  | (false, tr) => (exTempFail, tr)
  | (true, tr) =>
    match E.exec tr .ParseMIMEBody with
    | (false, tr) => (exTempFail, tr)
    | (true, tr) =>
      match extractLoop E jobId workDir 0 E.Attachments [] tr with
      | (none, tr) => (exTempFail, tr)
      | (some files, tr) =>
        match promoteLoop E workDir destDir files tr with
        | (false, tr) => (exTempFail, tr)
        | (true, tr) => (exOk, tr)

/-- The function `process` of `detach.go`: the exit code and the trace of the calls made.  The
logging calls are left out. -/
def process (E : Env) (destDir : GoString) : Nat × List Event :=
  let jobId := mkJobId E.now E.pid
  let workDir := E.Join destDir jobId
  match E.exec [] (.Mkdir workDir 0o700) with
  | (false, tr) => (exTempFail, tr)
  | (true, tr) =>
    let r := processBody E jobId workDir destDir tr
    (r.1, cleanup E workDir r.2)

/-- A directory's existence after a trace, as far as the calls on that very path decide it: a
successful `Mkdir` of the path makes it exist, a successful `RemoveAll` of the path makes it
not exist, every other event leaves it as it was. -/
def dirExists (path : GoString) (before : Bool) (tr : List Event) : Bool :=
  tr.foldl (fun b e =>
    match e with
    | ⟨.Mkdir p _, true⟩ => if p = path then true else b
    | ⟨.RemoveAll p, true⟩ => if p = path then false else b
    | _ => b) before

/-! ## What the statements are written with -/

/-- The number a string of decimal digits stands for (leading zeros allowed). -/
def decimalValue (s : GoString) : Nat := s.foldl (fun v c => 10 * v + (c.val - 48)) 0

/-- The file names the extraction loop builds for the attachments `atts`, the first of which
has ordinal `i`. -/
def fileNames (jobId : GoString) : Nat → List Attachment → List GoString
  | _, [] => []
  | i, a :: rest => fileName jobId i a.FileName :: fileNames jobId (i + 1) rest

/-- The events of a complete, successful extraction of the attachments `atts`, the first of
which has ordinal `i`: for each one its file is created, written and closed. -/
def extractOk (E : Env) (jobId workDir : GoString) : Nat → List Attachment → List Event
  | _, [] => []
  | i, a :: rest =>
    [⟨.Create (E.Join workDir (fileName jobId i a.FileName)), true⟩,
     ⟨.Write (E.Join workDir (fileName jobId i a.FileName)) a.Content, true⟩,
     ⟨.Close (E.Join workDir (fileName jobId i a.FileName)), true⟩]
      ++ extractOk E jobId workDir (i + 1) rest

/-- The three ways the extraction of one attachment fails: at create, at write, at close. -/
def extractFailures (fp content : GoString) : List (List Event) :=
  [[⟨.Create fp, false⟩],
   [⟨.Create fp, true⟩, ⟨.Write fp content, false⟩],
   [⟨.Create fp, true⟩, ⟨.Write fp content, true⟩, ⟨.Close fp, false⟩]]

/-- The events of a complete, successful promotion of the files `files`: each one is linked
into the destination and its workspace copy removed. -/
def promoteOk (E : Env) (workDir destDir : GoString) : List GoString → List Event
  | [] => []
  | fn :: rest =>
    [⟨.Link (E.Join workDir fn) (E.Join destDir fn), true⟩, ⟨.Remove (E.Join workDir fn), true⟩]
      ++ promoteOk E workDir destDir rest

/-- The two ways the promotion of one file fails: at link, at remove. -/
def promoteFailures (src dst : GoString) : List (List Event) :=
  [[⟨.Link src dst, false⟩], [⟨.Link src dst, true⟩, ⟨.Remove src, false⟩]]

/-- The job identifier `process` computes in the environment `E`. -/
def Env.jobId (E : Env) : GoString := mkJobId E.now E.pid

/-- The workspace directory of the job, `filepath.Join(destDir, jobId)`. -/
def Env.workDir (E : Env) (destDir : GoString) : GoString := E.Join destDir E.jobId

/-- The calls of the extraction step: create, write, close. -/
def Call.isExtract : Call → Bool
  | .Create _ => true
  | .Write _ _ => true
  | .Close _ => true
  | _ => false

/-- The calls of the promotion step: link, remove. -/
def Call.isPromote : Call → Bool
  | .Link _ _ => true
  | .Remove _ => true
  | _ => false

/-- The hard links a trace attempts, in order: source and destination of each. -/
def linksOf (tr : List Event) : List (GoString × GoString) :=
  tr.filterMap fun e =>
    match e.call with
    | .Link src dst => some (src, dst)
    | _ => none

/-- The events of a run up to the extraction loop: the workspace is created, the message is
read and parsed. -/
def header (workDir : GoString) : List Event :=
  [⟨.Mkdir workDir 0o700, true⟩, ⟨.ReadMessage, true⟩, ⟨.ParseMIMEBody, true⟩]

/-- The runs of `process`, one constructor for each exit path; `c` is the outcome of the
deferred `os.RemoveAll`. -/
inductive Run (E : Env) (destDir : GoString) : Nat × List Event → Prop where
  | mkdirFail : Run E destDir (exTempFail, [⟨.Mkdir (E.workDir destDir) 0o700, false⟩])
  | readFail (c : Bool) :
    Run E destDir (exTempFail,
      [⟨.Mkdir (E.workDir destDir) 0o700, true⟩, ⟨.ReadMessage, false⟩,
       ⟨.RemoveAll (E.workDir destDir), c⟩])
  | parseFail (c : Bool) :
    Run E destDir (exTempFail,
      [⟨.Mkdir (E.workDir destDir) 0o700, true⟩, ⟨.ReadMessage, true⟩,
       ⟨.ParseMIMEBody, false⟩, ⟨.RemoveAll (E.workDir destDir), c⟩])
  | extractFail (done : List Attachment) (a : Attachment) (rest : List Attachment)
      (tail : List Event) (c : Bool) (hatts : E.Attachments = done ++ a :: rest)
      (htail : tail ∈ extractFailures
        (E.Join (E.workDir destDir) (fileName E.jobId done.length a.FileName)) a.Content) :
    Run E destDir (exTempFail,
      header (E.workDir destDir) ++ extractOk E E.jobId (E.workDir destDir) 0 done ++ tail ++
        [⟨.RemoveAll (E.workDir destDir), c⟩])
  | promoteFail (done : List GoString) (fn : GoString) (rest : List GoString)
      (tail : List Event) (c : Bool)
      (hfiles : fileNames E.jobId 0 E.Attachments = done ++ fn :: rest)
      (htail : tail ∈ promoteFailures (E.Join (E.workDir destDir) fn) (E.Join destDir fn)) :
    Run E destDir (exTempFail,
      header (E.workDir destDir) ++ extractOk E E.jobId (E.workDir destDir) 0 E.Attachments ++
        promoteOk E (E.workDir destDir) destDir done ++ tail ++
        [⟨.RemoveAll (E.workDir destDir), c⟩])
  | success (c : Bool) :
    Run E destDir (exOk,
      header (E.workDir destDir) ++ extractOk E E.jobId (E.workDir destDir) 0 E.Attachments ++
        promoteOk E (E.workDir destDir) destDir (fileNames E.jobId 0 E.Attachments) ++
        [⟨.RemoveAll (E.workDir destDir), c⟩])

/-- The trace of the run in which every call of the job succeeds; `c` is the outcome of the
deferred `os.RemoveAll`. -/
def successTrace (E : Env) (destDir : GoString) (c : Bool) : List Event :=
  header (E.workDir destDir) ++ extractOk E E.jobId (E.workDir destDir) 0 E.Attachments ++
    promoteOk E (E.workDir destDir) destDir (fileNames E.jobId 0 E.Attachments) ++
    [⟨.RemoveAll (E.workDir destDir), c⟩]

/-! ## Concrete environments -/

/-- A stand-in for `filepath.Join` in the concrete runs below: the two elements with a
separator in between, which is what `Join` gives for two clean, non-empty elements. -/
def joinPlain (dir elem : GoString) : GoString := dir ++ [Separator] ++ elem

/-- The message of the end-to-end scenario: `report.pdf` with content `A` and an attachment
without a name with content `B`. -/
def twoAttachments : List Attachment := [⟨ascii "report.pdf", ascii "A"⟩, ⟨[], ascii "B"⟩]

/-- An environment in which the workspace cannot be created: `os.Mkdir` fails, as it does when
`destDir/jobId` exists already. -/
def envMkdirFails : Env where
  oracle := fun _ c => match c with
    | .Mkdir _ _ => false
    | _ => true
  Join := joinPlain
  now := ascii "20240101-010203"
  pid := 4321
  Attachments := twoAttachments

/-- An environment in which every `Write` fails (a full disk) and every other call succeeds. -/
def envWriteFails : Env where
  oracle := fun _ c => match c with
    | .Write _ _ => false
    | _ => true
  Join := joinPlain
  now := ascii "20240101-010203"
  pid := 4321
  Attachments := twoAttachments

/-- An environment in which the link of the second file fails and every other call succeeds. -/
def envSecondLinkFails : Env where
  oracle := fun tr c => match c with
    | .Link _ _ => (linksOf tr).length != 1
    | _ => true
  Join := joinPlain
  now := ascii "20240101-010203"
  pid := 4321
  Attachments := twoAttachments

/-- An environment in which every call succeeds. -/
def envAllOk : Env where
  oracle := fun _ _ => true
  Join := joinPlain
  now := ascii "20240101-010203"
  pid := 4321
  Attachments := twoAttachments

/-- A name whose final segment has 70 bytes, behind a directory part. -/
def longName : GoString := ascii "dir/" ++ (List.range 70).map digitByte

/-! ## `filepath.Base` -/

theorem not_sep_of_mem_lastElement {path : GoString} {c : Byte} (h : c ∈ lastElement path) :
    c ≠ Separator := by
  unfold lastElement at h
  rw [List.mem_reverse] at h
  have := List.mem_takeWhile_imp h
  simpa [IsPathSeparator] using this

theorem Base_ne_nil (path : GoString) : Base path ≠ [] := by
  unfold Base
  split
  · simp
  · dsimp only
    split
    · simp
    · assumption

theorem head?_dropWhile_false {α : Type} (p : α → Bool) (l : List α) :
    l.dropWhile p = [] ∨ ∃ x rest, l.dropWhile p = x :: rest ∧ p x = false := by
  induction l with
  | nil => left; rfl
  | cons a l ih =>
    by_cases h : p a = true
    · simpa [List.dropWhile_cons, h] using ih
    · right
      exact ⟨a, l, by simp [List.dropWhile_cons, h], by simpa using h⟩

/-- How `Base` cuts a path that has a byte other than the separator: a directory part that is
empty or ends in a separator, the base, and trailing separators. -/
theorem Base_decompose (path : GoString) (h : ∃ c ∈ path, c ≠ Separator) :
    ∃ dir trail, path = dir ++ Base path ++ trail ∧ (∀ c ∈ trail, c = Separator) ∧
      (dir = [] ∨ dir.getLast? = some Separator) ∧ Separator ∉ Base path := by
  obtain ⟨c, hc, hcs⟩ := h
  have hne : path ≠ [] := List.ne_nil_of_mem hc
  set r := path.reverse with hr
  set s := r.dropWhile IsPathSeparator with hs
  have hsne : s ≠ [] := by
    intro h0
    have : ∀ x ∈ r, IsPathSeparator x = true := by
      simpa [hs, List.dropWhile_eq_nil_iff] using h0
    have := this c (by simpa [hr] using hc)
    exact hcs (by simpa [IsPathSeparator] using this)
  have hhead : ∃ x rest, s = x :: rest ∧ IsPathSeparator x = false := by
    rcases head?_dropWhile_false IsPathSeparator r with h0 | h0
    · exact absurd h0 hsne
    · exact h0
  obtain ⟨x, rest, hxs, hx⟩ := hhead
  have hle : lastElement (stripTrailingSeparators path) =
      (s.takeWhile fun c => !IsPathSeparator c).reverse := by
    simp [lastElement, stripTrailingSeparators, hs, hr]
  have hlne : lastElement (stripTrailingSeparators path) ≠ [] := by
    rw [hle, hxs]
    simp [List.takeWhile_cons, hx]
  have hB : Base path = (s.takeWhile fun c => !IsPathSeparator c).reverse := by
    unfold Base
    rw [if_neg hne]
    dsimp only
    rw [if_neg hlne, hle]
  refine ⟨(s.dropWhile fun c => !IsPathSeparator c).reverse,
    (r.takeWhile IsPathSeparator).reverse, ?_, ?_, ?_, ?_⟩
  · rw [hB, ← List.reverse_append, ← List.reverse_append]
    simp only [List.takeWhile_append_dropWhile, List.append_assoc]
    rw [hs, List.takeWhile_append_dropWhile, hr, List.reverse_reverse]
  · intro y hy
    rw [List.mem_reverse] at hy
    simpa [IsPathSeparator] using List.mem_takeWhile_imp hy
  · rcases head?_dropWhile_false (fun c => !IsPathSeparator c) s with h0 | ⟨y, t, h0, hy⟩
    · left; simp [h0]
    · right
      rw [h0, List.getLast?_reverse]
      simpa [IsPathSeparator] using hy
  · intro hmem
    rw [hB, List.mem_reverse] at hmem
    simpa [IsPathSeparator] using List.mem_takeWhile_imp hmem

theorem Base_of_all_separators (path : GoString) (hne : path ≠ [])
    (h : ∀ c ∈ path, c = Separator) : Base path = [Separator] := by
  have hs : stripTrailingSeparators path = [] := by
    unfold stripTrailingSeparators
    rw [List.reverse_eq_nil_iff, List.dropWhile_eq_nil_iff]
    intro x hx
    simp [IsPathSeparator, h x (List.mem_reverse.mp hx)]
  unfold Base
  rw [if_neg hne]
  simp [hs, lastElement]

theorem Base_of_no_separator (path : GoString) (hne : path ≠ [])
    (h : Separator ∉ path) : Base path = path := by
  have h1 : ∀ x ∈ path, IsPathSeparator x = false := by
    intro x hx
    simp only [IsPathSeparator, beq_eq_false_iff_ne]
    rintro rfl
    exact h hx
  have hs : stripTrailingSeparators path = path := by
    unfold stripTrailingSeparators
    cases hp : path.reverse with
    | nil => simpa using hp
    | cons a l =>
      have ha : IsPathSeparator a = false :=
        h1 a (List.mem_reverse.mp (by rw [hp]; exact List.mem_cons_self _ _))
      rw [List.dropWhile_cons, ha]
      simp only [Bool.false_eq_true, if_false]
      rw [← hp, List.reverse_reverse]
  have hl : lastElement path = path := by
    unfold lastElement
    have : path.reverse.takeWhile (fun c => !IsPathSeparator c) = path.reverse := by
      rw [List.takeWhile_eq_self_iff]
      intro x hx
      simp [h1 x (List.mem_reverse.mp hx)]
    rw [this, List.reverse_reverse]
  unfold Base
  rw [if_neg hne]
  simp [hs, hl, hne]

/-- The two outcomes of `sanitizeFileName` in terms of the base of the name. -/
theorem sanitizeFileName_eq (fn : GoString) :
    sanitizeFileName fn =
      if 64 < (Base fn).length then
        (Base fn).take 31 ++ [dot, dot] ++ (Base fn).drop ((Base fn).length - 31)
      else Base fn := by
  unfold sanitizeFileName
  dsimp only
  by_cases h : 64 < (Base fn).length
  · have h2 : (Base fn).length > maxOriginalFileNameLength := h
    rw [if_pos h, if_pos h2]
    have e : (Base fn).length - maxOriginalFileNameLength / 2 + 1 = (Base fn).length - 31 := by
      simp only [maxOriginalFileNameLength]
      omega
    rw [e]
    simp [slice, sliceFrom, maxOriginalFileNameLength]
  · have h2 : ¬ (Base fn).length > maxOriginalFileNameLength := h
    rw [if_neg h, if_neg h2]

theorem sanitizeFileName_ne_nil (fn : GoString) : sanitizeFileName fn ≠ [] := by
  rw [sanitizeFileName_eq]
  split
  · simp
  · exact Base_ne_nil fn

theorem mem_sanitizeFileName {fn : GoString} {c : Byte} (h : c ∈ sanitizeFileName fn) :
    c ∈ Base fn ∨ c = dot := by
  rw [sanitizeFileName_eq] at h
  split at h
  · simp only [List.mem_append, List.mem_cons, List.mem_singleton, List.not_mem_nil,
      or_false, or_self] at h
    rcases h with (h | h) | h
    · exact Or.inl (List.mem_of_mem_take h)
    · exact Or.inr h
    · exact Or.inl (List.mem_of_mem_drop h)
  · exact Or.inl h

/-! ## Claims on `sanitizeFileName` -/

/-- C1, as the claim states it, fails: the name `/` is sanitized to `/`, so the result of
`sanitizeFileName` can contain a path separator. -/
theorem sanitizeFileName_keeps_lone_separator :
    ¬ ∀ fn : GoString, Separator ∉ sanitizeFileName fn := by
  intro h
  exact h [Separator] (by decide)

/-- C1, amended: the result of `sanitizeFileName` contains a path separator exactly when the
name is non-empty and made of separators only, and the result is then the one-byte name `/`.
For every name with a byte other than the separator, the name is a directory part (empty or
ending in a separator), a non-empty final segment without separator and trailing separators,
and the result is that final segment, or its 64-byte summary when it is longer than 64
bytes.  `../../etc/passwd` yields `passwd`. -/
theorem sanitizeFileName_final_segment :
    (∀ fn : GoString,
      (Separator ∈ sanitizeFileName fn ↔ fn ≠ [] ∧ ∀ c ∈ fn, c = Separator) ∧
      ((fn ≠ [] ∧ ∀ c ∈ fn, c = Separator) → sanitizeFileName fn = [Separator]) ∧
      ((∃ c ∈ fn, c ≠ Separator) →
        ∃ dir seg trail, fn = dir ++ seg ++ trail ∧ seg ≠ [] ∧ Separator ∉ seg ∧
          (∀ c ∈ trail, c = Separator) ∧ (dir = [] ∨ dir.getLast? = some Separator) ∧
          sanitizeFileName fn =
            if 64 < seg.length then seg.take 31 ++ [dot, dot] ++ seg.drop (seg.length - 31)
            else seg)) ∧
    sanitizeFileName (ascii "../../etc/passwd") = ascii "passwd" := by
  refine ⟨fun fn => ?_, by decide⟩
  have hall : (fn ≠ [] ∧ ∀ c ∈ fn, c = Separator) → sanitizeFileName fn = [Separator] := by
    rintro ⟨hne, h⟩
    rw [sanitizeFileName_eq, Base_of_all_separators fn hne h]
    simp
  have hseg : (∃ c ∈ fn, c ≠ Separator) → Separator ∉ sanitizeFileName fn := by
    intro h hmem
    obtain ⟨_, _, _, _, _, hB⟩ := Base_decompose fn h
    rcases mem_sanitizeFileName hmem with h1 | h1
    · exact hB h1
    · exact absurd h1 (by decide)
  refine ⟨⟨fun hmem => ?_, fun h => ?_⟩, hall, fun h => ?_⟩
  · by_cases hne : fn = []
    · subst hne
      exact absurd hmem (by decide)
    · refine ⟨hne, fun c hc => ?_⟩
      by_contra hcs
      exact hseg ⟨c, hc, hcs⟩ hmem
  · rw [hall h]
    exact List.mem_singleton_self _
  · obtain ⟨dir, trail, hfn, htrail, hdir, hB⟩ := Base_decompose fn h
    exact ⟨dir, Base fn, trail, hfn, Base_ne_nil fn, hB, htrail, hdir, sanitizeFileName_eq fn⟩

/-- C2, the failing input: the empty name is sanitized to `.`, not to the empty string, and
`sanitizeFileName` never returns the empty string at all, so the test `ofn != ""` of `process`
never fails and an attachment without a name gets the file name `jobId-NNNN-.`.  Every
non-empty name of at most 64 bytes without separator is returned unchanged. -/
theorem sanitizeFileName_empty_name :
    sanitizeFileName [] = [dot] ∧
    (∀ fn : GoString, sanitizeFileName fn ≠ []) ∧
    (∀ (jobId : GoString) (i : Nat),
      fileName jobId i [] = jobId ++ [dash] ++ Sprintf04d i ++ [dash, dot]) ∧
    (∀ fn : GoString, fn ≠ [] → fn.length ≤ 64 → Separator ∉ fn → sanitizeFileName fn = fn) := by
  refine ⟨by decide, sanitizeFileName_ne_nil, fun jobId i => ?_, fun fn hne hlen hsep => ?_⟩
  · have h : sanitizeFileName [] = [dot] := by decide
    simp [fileName, h]
  · rw [sanitizeFileName_eq, Base_of_no_separator fn hne hsep, if_neg (by omega)]

/-- C3: when the final path segment of the name, `Base fn`, is longer than 64 bytes, the result
of `sanitizeFileName` has length exactly 64 and is the first 31 bytes of the segment, the
marker `..` and the last 31 bytes of the segment. -/
theorem sanitizeFileName_long (fn : GoString) (h : 64 < (Base fn).length) :
    (sanitizeFileName fn).length = 64 ∧
    sanitizeFileName fn =
      (Base fn).take 31 ++ [dot, dot] ++ (Base fn).drop ((Base fn).length - 31) ∧
    ((Base fn).take 31).length = 31 ∧
    ((Base fn).drop ((Base fn).length - 31)).length = 31 := by
  have e : sanitizeFileName fn =
      (Base fn).take 31 ++ [dot, dot] ++ (Base fn).drop ((Base fn).length - 31) := by
    rw [sanitizeFileName_eq, if_pos h]
  refine ⟨?_, e, ?_, ?_⟩
  · rw [e]
    simp only [List.length_append, List.length_take, List.length_drop, List.length_cons,
      List.length_nil]
    omega
  · rw [List.length_take]
    omega
  · rw [List.length_drop]
    omega

/-- C3 at `longName`. -/
theorem sanitizeFileName_long_witness :
    64 < (Base longName).length ∧
    (sanitizeFileName longName).length = 64 ∧
    sanitizeFileName longName =
      (Base longName).take 31 ++ [dot, dot] ++ (Base longName).drop ((Base longName).length - 31) ∧
    ((Base longName).take 31).length = 31 ∧
    ((Base longName).drop ((Base longName).length - 31)).length = 31 :=
  ⟨by decide, sanitizeFileName_long longName (by decide)⟩

/-! ## Decimal digits -/

theorem digitByte_ne_dash (d : Nat) : digitByte d ≠ dash := by
  intro h
  have := congrArg Fin.val h
  simp only [digitByte, dash] at this
  have h2 : (45 : Fin 256).val = 45 := rfl
  omega

theorem mem_formatDigits (fuel n : Nat) (acc : GoString) (c : Byte)
    (h : c ∈ formatDigits fuel n acc) : c ∈ acc ∨ ∃ d, c = digitByte d := by
  induction fuel generalizing n acc with
  | zero => exact Or.inl h
  | succ fuel ih =>
    rw [formatDigits] at h
    split at h
    · rcases List.mem_cons.mp h with h | h
      · exact Or.inr ⟨n, h⟩
      · exact Or.inl h
    · rcases ih _ _ h with h | h
      · rcases List.mem_cons.mp h with h | h
        · exact Or.inr ⟨n, h⟩
        · exact Or.inl h
      · exact Or.inr h

theorem Itoa_no_dash (n : Nat) : ∀ c ∈ Itoa n, c ≠ dash := by
  intro c hc
  rcases mem_formatDigits _ _ _ _ hc with h | ⟨d, rfl⟩
  · exact absurd h (List.not_mem_nil _)
  · exact digitByte_ne_dash d

theorem Sprintf04d_no_dash (i : Nat) : ∀ c ∈ Sprintf04d i, c ≠ dash := by
  intro c hc
  rcases List.mem_append.mp hc with h | h
  · rw [List.eq_of_mem_replicate h]
    exact digitByte_ne_dash 0
  · exact Itoa_no_dash i c h

theorem foldl_formatDigits (fuel n : Nat) (acc : GoString) (h : n < fuel) :
    (formatDigits fuel n acc).foldl (fun v c => 10 * v + (c.val - 48)) 0 =
      acc.foldl (fun v c => 10 * v + (c.val - 48)) n := by
  induction fuel generalizing n acc with
  | zero => omega
  | succ fuel ih =>
    rw [formatDigits]
    split
    · rename_i h10
      simp only [List.foldl_cons, digitByte]
      congr 1
      omega
    · rw [ih (n / 10) _ (by omega)]
      simp only [List.foldl_cons, digitByte]
      congr 1
      omega

theorem decimalValue_Itoa (n : Nat) : decimalValue (Itoa n) = n := by
  unfold decimalValue Itoa
  rw [foldl_formatDigits _ _ _ (Nat.lt_succ_self n)]
  rfl

theorem decimalValue_Sprintf04d (i : Nat) : decimalValue (Sprintf04d i) = i := by
  have hz : ∀ k : Nat, (List.replicate k (digitByte 0)).foldl
      (fun v c => 10 * v + (c.val - 48)) 0 = 0 := by
    intro k
    induction k with
    | zero => rfl
    | succ k ih => rw [List.replicate_succ, List.foldl_cons]; exact ih
  have := decimalValue_Itoa i
  unfold decimalValue at this ⊢
  unfold Sprintf04d
  rw [List.foldl_append, hz, this]

theorem Sprintf04d_injective {i j : Nat} (h : Sprintf04d i = Sprintf04d j) : i = j := by
  rw [← decimalValue_Sprintf04d i, ← decimalValue_Sprintf04d j, h]

/-- Two strings without `-`, each followed by `-`, are equal when what they start is equal. -/
theorem append_dash_cancel {a b x y : GoString} (ha : ∀ c ∈ a, c ≠ dash)
    (hb : ∀ c ∈ b, c ≠ dash) (h : a ++ dash :: x = b ++ dash :: y) : a = b ∧ x = y := by
  induction a generalizing b with
  | nil =>
    cases b with
    | nil => exact ⟨rfl, by simpa using h⟩
    | cons c b =>
      simp only [List.nil_append, List.cons_append, List.cons.injEq] at h
      exact absurd h.1.symm (hb c (List.mem_cons_self _ _))
  | cons c a ih =>
    cases b with
    | nil =>
      simp only [List.nil_append, List.cons_append, List.cons.injEq] at h
      exact absurd h.1 (ha c (List.mem_cons_self _ _))
    | cons c2 b =>
      simp only [List.cons_append, List.cons.injEq] at h
      obtain ⟨h1, h2⟩ := ih (fun c hc => ha c (List.mem_cons_of_mem _ hc))
        (fun c hc => hb c (List.mem_cons_of_mem _ hc)) h.2
      exact ⟨by rw [h.1, h1], h2⟩

theorem formatDigits_fuel (f g n : Nat) (acc : GoString) (hf : n < 10 ^ f) (hg : n < 10 ^ g)
    (hf0 : 0 < f) (hg0 : 0 < g) : formatDigits f n acc = formatDigits g n acc := by
  induction f generalizing g n acc with
  | zero => omega
  | succ f ih =>
    obtain ⟨g, rfl⟩ : ∃ g', g = g' + 1 := ⟨g - 1, by omega⟩
    rw [formatDigits, formatDigits]
    split
    · rfl
    · rename_i h10
      have h1 : n / 10 < 10 ^ f := by
        rw [Nat.div_lt_iff_lt_mul (by norm_num)]
        rw [pow_succ] at hf
        exact hf
      have h2 : n / 10 < 10 ^ g := by
        rw [Nat.div_lt_iff_lt_mul (by norm_num)]
        rw [pow_succ] at hg
        exact hg
      have hf1 : 0 < f := by
        rcases Nat.eq_zero_or_pos f with h | h
        · subst h; simp at hf; omega
        · exact h
      have hg1 : 0 < g := by
        rcases Nat.eq_zero_or_pos g with h | h
        · subst h; simp at hg; omega
        · exact h
      exact ih g (n / 10) _ h1 h2 hf1 hg1

/-- Below 10000, `%04d` gives exactly four digits: thousands, hundreds, tens, units. -/
theorem Sprintf04d_four_digits (i : Nat) (h : i < 10000) :
    Sprintf04d i = [digitByte (i / 1000), digitByte (i / 100), digitByte (i / 10), digitByte i] := by
  have hI : Itoa i = formatDigits 4 i [] := by
    unfold Itoa
    apply formatDigits_fuel
    · exact lt_of_lt_of_le (Nat.lt_pow_self (by norm_num) i) (Nat.pow_le_pow_right (by norm_num) (Nat.le_succ i))
    · simpa using h
    · omega
    · omega
  unfold Sprintf04d
  rw [hI]
  simp only [formatDigits]
  have e0 : ∀ k, k = 0 → digitByte k = digitByte 0 := by rintro _ rfl; rfl
  by_cases h1 : i < 10
  · simp [h1, e0 (i / 1000) (by omega), e0 (i / 100) (by omega), e0 (i / 10) (by omega)]
  · by_cases h2 : i / 10 < 10
    · simp [h1, h2, e0 (i / 1000) (by omega), e0 (i / 100) (by omega)]
    · by_cases h3 : i / 100 < 10
      · simp [h1, h2, h3, e0 (i / 1000) (by omega), Nat.div_div_eq_div_mul]
      · have h4 : i / 1000 < 10 := by omega
        simp [h1, h2, h3, h4, Nat.div_div_eq_div_mul]

/-! ## File names -/

theorem fileName_eq (jobId : GoString) (i : Nat) (orig : GoString) :
    fileName jobId i orig = jobId ++ dash :: (Sprintf04d i ++ dash :: sanitizeFileName orig) := by
  unfold fileName
  simp [sanitizeFileName_ne_nil]

theorem fileName_ordinal_injective {jobId : GoString} {i j : Nat} {o1 o2 : GoString}
    (h : fileName jobId i o1 = fileName jobId j o2) : i = j := by
  rw [fileName_eq, fileName_eq] at h
  have h1 := List.append_cancel_left h
  simp only [List.cons.injEq, true_and] at h1
  exact Sprintf04d_injective
    (append_dash_cancel (Sprintf04d_no_dash i) (Sprintf04d_no_dash j) h1).1

theorem length_fileNames (jobId : GoString) (i : Nat) (atts : List Attachment) :
    (fileNames jobId i atts).length = atts.length := by
  induction atts generalizing i with
  | nil => rfl
  | cons a rest ih => simp [fileNames, ih]

theorem getElem?_fileNames (jobId : GoString) (k : Nat) (atts : List Attachment) (i : Nat) :
    (fileNames jobId k atts)[i]? = atts[i]?.map fun a => fileName jobId (k + i) a.FileName := by
  induction atts generalizing k i with
  | nil => simp [fileNames]
  | cons a rest ih =>
    cases i with
    | zero => simp [fileNames]
    | succ i =>
      simp only [fileNames, List.getElem?_cons_succ, ih]
      congr 1
      funext a
      congr 1
      omega

/-! ## The loops -/

/-- The extraction loop either completes, having built the names `fileNames` and made the
calls `extractOk`, or stops at the first attachment one of whose three calls fails. -/
theorem extractLoop_spec (E : Env) (jobId workDir : GoString) (atts : List Attachment) :
    ∀ (i : Nat) (files : List GoString) (tr : List Event),
      extractLoop E jobId workDir i atts files tr =
        (some (files ++ fileNames jobId i atts), tr ++ extractOk E jobId workDir i atts) ∨
      ∃ done a rest tail, atts = done ++ a :: rest ∧
        tail ∈ extractFailures (E.Join workDir (fileName jobId (i + done.length) a.FileName))
          a.Content ∧
        extractLoop E jobId workDir i atts files tr =
          (none, tr ++ extractOk E jobId workDir i done ++ tail) := by
  induction atts with
  | nil =>
    intro i files tr
    left
    simp [extractLoop, fileNames, extractOk]
  | cons a rest ih =>
    intro i files tr
    rw [extractLoop]
    simp only [Env.exec]
    cases h1 : E.oracle tr (.Create (E.Join workDir (fileName jobId i a.FileName)))
    · right
      exact ⟨[], a, rest, [⟨.Create (E.Join workDir (fileName jobId i a.FileName)), false⟩],
        rfl, by simp [extractFailures], by simp [extractOk]⟩
    · dsimp only
      cases h2 : E.oracle (tr ++ [⟨.Create (E.Join workDir (fileName jobId i a.FileName)), true⟩])
        (.Write (E.Join workDir (fileName jobId i a.FileName)) a.Content)
      · right
        exact ⟨[], a, rest, [⟨.Create (E.Join workDir (fileName jobId i a.FileName)), true⟩,
          ⟨.Write (E.Join workDir (fileName jobId i a.FileName)) a.Content, false⟩],
          rfl, by simp [extractFailures], by simp [extractOk]⟩
      · dsimp only
        cases h3 : E.oracle
          (tr ++ [⟨.Create (E.Join workDir (fileName jobId i a.FileName)), true⟩] ++
            [⟨.Write (E.Join workDir (fileName jobId i a.FileName)) a.Content, true⟩])
          (.Close (E.Join workDir (fileName jobId i a.FileName)))
        · right
          exact ⟨[], a, rest, [⟨.Create (E.Join workDir (fileName jobId i a.FileName)), true⟩,
            ⟨.Write (E.Join workDir (fileName jobId i a.FileName)) a.Content, true⟩,
            ⟨.Close (E.Join workDir (fileName jobId i a.FileName)), false⟩],
            rfl, by simp [extractFailures], by simp [extractOk]⟩
        · dsimp only
          rcases ih (i + 1) (files ++ [fileName jobId i a.FileName])
            (tr ++ [⟨.Create (E.Join workDir (fileName jobId i a.FileName)), true⟩] ++
              [⟨.Write (E.Join workDir (fileName jobId i a.FileName)) a.Content, true⟩] ++
              [⟨.Close (E.Join workDir (fileName jobId i a.FileName)), true⟩]) with h | h
          · left
            rw [h]
            simp [fileNames, extractOk]
          · right
            obtain ⟨done, b, rest2, tail, hatts, htail, hrun⟩ := h
            refine ⟨a :: done, b, rest2, tail, by rw [hatts]; rfl, ?_, ?_⟩
            · have e : i + (a :: done).length = i + 1 + done.length := by
                simp only [List.length_cons]; omega
              rw [e]
              exact htail
            · rw [hrun]
              simp [extractOk]

/-- The promotion loop either completes, having made the calls `promoteOk`, or stops at the
first file whose link or remove fails. -/
theorem promoteLoop_spec (E : Env) (workDir destDir : GoString) (files : List GoString) :
    ∀ tr : List Event,
      promoteLoop E workDir destDir files tr = (true, tr ++ promoteOk E workDir destDir files) ∨
      ∃ done fn rest tail, files = done ++ fn :: rest ∧
        tail ∈ promoteFailures (E.Join workDir fn) (E.Join destDir fn) ∧
        promoteLoop E workDir destDir files tr =
          (false, tr ++ promoteOk E workDir destDir done ++ tail) := by
  induction files with
  | nil =>
    intro tr
    left
    simp [promoteLoop, promoteOk]
  | cons fn rest ih =>
    intro tr
    rw [promoteLoop]
    simp only [Env.exec]
    cases h1 : E.oracle tr (.Link (E.Join workDir fn) (E.Join destDir fn))
    · right
      exact ⟨[], fn, rest, [⟨.Link (E.Join workDir fn) (E.Join destDir fn), false⟩],
        rfl, by simp [promoteFailures], by simp [promoteOk]⟩
    · dsimp only
      cases h2 : E.oracle (tr ++ [⟨.Link (E.Join workDir fn) (E.Join destDir fn), true⟩])
        (.Remove (E.Join workDir fn))
      · right
        exact ⟨[], fn, rest, [⟨.Link (E.Join workDir fn) (E.Join destDir fn), true⟩,
          ⟨.Remove (E.Join workDir fn), false⟩],
          rfl, by simp [promoteFailures], by simp [promoteOk]⟩
      · dsimp only
        rcases ih (tr ++ [⟨.Link (E.Join workDir fn) (E.Join destDir fn), true⟩] ++
          [⟨.Remove (E.Join workDir fn), true⟩]) with h | h
        · left
          rw [h]
          simp [promoteOk]
        · right
          obtain ⟨done, f2, rest2, tail, hfiles, htail, hrun⟩ := h
          refine ⟨fn :: done, f2, rest2, tail, by rw [hfiles]; rfl, htail, ?_⟩
          rw [hrun]
          simp [promoteOk]

/-! ## The runs of `process` -/

/-- Every run of `process` is one of the six exit paths of `Run`. -/
theorem process_run (E : Env) (destDir : GoString) : Run E destDir (process E destDir) := by
  unfold process
  simp only [Env.exec, List.nil_append]
  cases h0 : E.oracle [] (.Mkdir (E.Join destDir (mkJobId E.now E.pid)) 0o700)
  · exact Run.mkdirFail
  · dsimp only
    unfold processBody cleanup
    simp only [Env.exec]
    cases h1 : E.oracle [⟨.Mkdir (E.Join destDir (mkJobId E.now E.pid)) 0o700, true⟩] .ReadMessage
    · exact Run.readFail _
    · dsimp only
      cases h2 : E.oracle ([⟨.Mkdir (E.Join destDir (mkJobId E.now E.pid)) 0o700, true⟩] ++
          [⟨.ReadMessage, true⟩]) .ParseMIMEBody
      · exact Run.parseFail _
      · dsimp only
        rcases extractLoop_spec E (mkJobId E.now E.pid) (E.Join destDir (mkJobId E.now E.pid))
          E.Attachments 0 []
          ([⟨.Mkdir (E.Join destDir (mkJobId E.now E.pid)) 0o700, true⟩] ++
            [⟨.ReadMessage, true⟩] ++ [⟨.ParseMIMEBody, true⟩]) with h | h
        · rw [h]
          dsimp only
          rcases promoteLoop_spec E (E.Join destDir (mkJobId E.now E.pid)) destDir
            ([] ++ fileNames (mkJobId E.now E.pid) 0 E.Attachments)
            ([⟨.Mkdir (E.Join destDir (mkJobId E.now E.pid)) 0o700, true⟩] ++
              [⟨.ReadMessage, true⟩] ++ [⟨.ParseMIMEBody, true⟩] ++
              extractOk E (mkJobId E.now E.pid) (E.Join destDir (mkJobId E.now E.pid)) 0
                E.Attachments) with h' | h'
          · rw [h']
            exact Run.success _
          · obtain ⟨done, fn, rest, tail, hfiles, htail, hrun⟩ := h'
            rw [hrun]
            exact Run.promoteFail done fn rest tail _ hfiles htail
        · obtain ⟨done, a, rest, tail, hatts, htail, hrun⟩ := h
          rw [hrun]
          have htail' : tail ∈ extractFailures
              (E.Join (E.workDir destDir) (fileName E.jobId done.length a.FileName)) a.Content := by
            simpa [Env.workDir, Env.jobId] using htail
          exact Run.extractFail done a rest tail _ hatts htail'

/-! ## Claims on the file names -/

/-- C4: the extraction loop, when it completes, has built exactly the names `fileNames`, one for
each attachment; these names are pairwise distinct, and the name at ordinal `i` begins with
`jobId`, `-` and `i` printed with `%04d`, which below 10000 is exactly four decimal digits.
Nothing is assumed of the original names. -/
theorem fileNames_pairwise_distinct (jobId : GoString) (atts : List Attachment) :
    (fileNames jobId 0 atts).length = atts.length ∧
    (∀ i j : Nat, i < j → j < atts.length →
      (fileNames jobId 0 atts)[i]? ≠ (fileNames jobId 0 atts)[j]?) ∧
    (∀ i : Nat, i < atts.length →
      ∃ rest, (fileNames jobId 0 atts)[i]? = some (jobId ++ [dash] ++ Sprintf04d i ++ rest)) ∧
    (∀ i : Nat, i < 10000 → Sprintf04d i =
      [digitByte (i / 1000), digitByte (i / 100), digitByte (i / 10), digitByte i]) ∧
    (∀ (E : Env) (workDir : GoString) (tr : List Event),
      (extractLoop E jobId workDir 0 atts [] tr).1 = none ∨
      (extractLoop E jobId workDir 0 atts [] tr).1 = some (fileNames jobId 0 atts)) := by
  refine ⟨length_fileNames jobId 0 atts, ?_, ?_, Sprintf04d_four_digits, ?_⟩
  · intro i j hij hj h
    rw [getElem?_fileNames, getElem?_fileNames, List.getElem?_eq_getElem (by omega),
      List.getElem?_eq_getElem hj] at h
    simp only [Option.map_some', Option.some.injEq, Nat.zero_add] at h
    have := fileName_ordinal_injective h
    omega
  · intro i hi
    rw [getElem?_fileNames, List.getElem?_eq_getElem hi]
    refine ⟨dash :: sanitizeFileName atts[i].FileName, ?_⟩
    simp [fileName_eq]
  · intro E workDir tr
    rcases extractLoop_spec E jobId workDir atts 0 [] tr with h | ⟨_, _, _, _, _, _, h⟩
    · right
      rw [h]
      simp
    · left
      rw [h]

/-- C5: two jobs whose identifiers differ, each identifier a 15-byte timestamp, `-` and the
decimal process id, never produce the same file name, whatever the ordinals and the original
names of the attachments. -/
theorem fileName_ne_of_jobId_ne (now₁ now₂ : GoString) (pid₁ pid₂ : Nat)
    (h₁ : now₁.length = 15) (h₂ : now₂.length = 15)
    (hne : mkJobId now₁ pid₁ ≠ mkJobId now₂ pid₂) (i j : Nat) (orig₁ orig₂ : GoString) :
    fileName (mkJobId now₁ pid₁) i orig₁ ≠ fileName (mkJobId now₂ pid₂) j orig₂ := by
  intro h
  apply hne
  rw [fileName_eq, fileName_eq] at h
  unfold mkJobId at h ⊢
  simp only [List.append_assoc, List.singleton_append, List.cons_append] at h ⊢
  obtain ⟨hnow, hrest⟩ := List.append_inj h (by rw [h₁, h₂])
  simp only [List.cons.injEq, true_and] at hrest
  obtain ⟨hpid, _⟩ := append_dash_cancel (Itoa_no_dash pid₁) (Itoa_no_dash pid₂) hrest
  rw [hnow, hpid]

/-- C5 at two jobs started in the same second by the processes 4321 and 4322, for two
attachments of the same ordinal and the same original name. -/
theorem fileName_ne_of_jobId_ne_witness :
    (ascii "20240101-010203").length = 15 ∧
    mkJobId (ascii "20240101-010203") 4321 ≠ mkJobId (ascii "20240101-010203") 4322 ∧
    fileName (mkJobId (ascii "20240101-010203") 4321) 0 (ascii "report.pdf") ≠
      fileName (mkJobId (ascii "20240101-010203") 4322) 0 (ascii "report.pdf") :=
  ⟨by decide, by decide,
    fileName_ne_of_jobId_ne (ascii "20240101-010203") (ascii "20240101-010203") 4321 4322
      (by decide) (by decide) (by decide) 0 0 (ascii "report.pdf") (ascii "report.pdf")⟩

/-! ## What the events of a run are -/

theorem isExtract_facts {c : Call} (h : c.isExtract = true) :
    c.isPromote = false ∧ (∀ p, c ≠ .RemoveAll p) ∧ (∀ s t, c ≠ .Link s t) := by
  cases c <;> simp [Call.isExtract, Call.isPromote] at h ⊢

theorem isPromote_facts {c : Call} (h : c.isPromote = true) :
    c.isExtract = false ∧ (∀ p, c ≠ .RemoveAll p) := by
  cases c <;> simp [Call.isExtract, Call.isPromote] at h ⊢

theorem mem_header {workDir : GoString} {e : Event} (h : e ∈ header workDir) :
    e.ok = true ∧ e.call.isExtract = false ∧ e.call.isPromote = false ∧
      (∀ p, e.call ≠ .RemoveAll p) ∧ (∀ s t, e.call ≠ .Link s t) := by
  simp only [header, List.mem_cons, List.mem_singleton, List.not_mem_nil, or_false] at h
  rcases h with rfl | rfl | rfl <;> simp [Call.isExtract, Call.isPromote]

theorem mem_extractOk {E : Env} {jobId workDir : GoString} {i : Nat} {atts : List Attachment}
    {e : Event} (h : e ∈ extractOk E jobId workDir i atts) :
    e.ok = true ∧ e.call.isExtract = true := by
  induction atts generalizing i with
  | nil => simp [extractOk] at h
  | cons a rest ih =>
    simp only [extractOk, List.mem_append, List.mem_cons, List.not_mem_nil, or_false] at h
    rcases h with (rfl | rfl | rfl) | h
    · simp [Call.isExtract]
    · simp [Call.isExtract]
    · simp [Call.isExtract]
    · exact ih h

theorem mem_promoteOk {E : Env} {workDir destDir : GoString} {files : List GoString}
    {e : Event} (h : e ∈ promoteOk E workDir destDir files) :
    e.ok = true ∧ e.call.isPromote = true := by
  induction files with
  | nil => simp [promoteOk] at h
  | cons fn rest ih =>
    simp only [promoteOk, List.mem_append, List.mem_cons, List.not_mem_nil, or_false] at h
    rcases h with (rfl | rfl) | h
    · simp [Call.isPromote]
    · simp [Call.isPromote]
    · exact ih h

theorem mem_extractFailures {fp content : GoString} {tail : List Event}
    (h : tail ∈ extractFailures fp content) :
    (∀ e ∈ tail, e.call.isExtract = true) ∧ (∃ e ∈ tail, e.ok = false) := by
  simp only [extractFailures, List.mem_cons, List.mem_singleton, List.not_mem_nil,
    or_false] at h
  rcases h with rfl | rfl | rfl <;> simp [Call.isExtract]

theorem mem_promoteFailures {src dst : GoString} {tail : List Event}
    (h : tail ∈ promoteFailures src dst) :
    (∀ e ∈ tail, e.call.isPromote = true) ∧ (∃ e ∈ tail, e.ok = false) ∧
      linksOf tail = [(src, dst)] ∧
      (∀ s t, (⟨.Link s t, false⟩ : Event) ∈ tail →
        tail = [⟨.Link src dst, false⟩] ∧ s = src ∧ t = dst) := by
  simp only [promoteFailures, List.mem_cons, List.mem_singleton, List.not_mem_nil,
    or_false] at h
  rcases h with rfl | rfl <;> simp [Call.isPromote, linksOf]

theorem linksOf_append (xs ys : List Event) : linksOf (xs ++ ys) = linksOf xs ++ linksOf ys := by
  simp [linksOf, List.filterMap_append]

theorem linksOf_eq_nil {tr : List Event} (h : ∀ e ∈ tr, ∀ s t, e.call ≠ .Link s t) :
    linksOf tr = [] := by
  unfold linksOf
  rw [List.filterMap_eq_nil_iff]
  intro e he
  have := h e he
  cases hc : e.call <;> simp_all

theorem linksOf_promoteOk (E : Env) (workDir destDir : GoString) (files : List GoString) :
    linksOf (promoteOk E workDir destDir files) =
      files.map fun fn => (E.Join workDir fn, E.Join destDir fn) := by
  induction files with
  | nil => rfl
  | cons fn rest ih =>
    rw [promoteOk, linksOf_append, ih]
    simp [linksOf]

/-- Each run ends with one of the two exit codes. -/
theorem Run.code_cases {E : Env} {destDir : GoString} {r : Nat × List Event}
    (hr : Run E destDir r) : r.1 = exOk ∨ r.1 = exTempFail := by
  cases hr <;> simp

/-- In the trace of the run in which every call succeeds, only the cleanup can have failed. -/
theorem successTrace_ok {E : Env} {destDir : GoString} {c : Bool} {e : Event}
    (he : e ∈ successTrace E destDir c) (hf : e.ok = false) :
    e.call = .RemoveAll (E.workDir destDir) := by
  simp only [successTrace, List.mem_append, List.mem_singleton] at he
  rcases he with ((h | h) | h) | rfl
  · rw [(mem_header h).1] at hf; cases hf
  · rw [(mem_extractOk h).1] at hf; cases hf
  · rw [(mem_promoteOk h).1] at hf; cases hf
  · rfl

/-- A run that ends with `exOk` is the run in which every call succeeds. -/
theorem Run.of_exOk {E : Env} {destDir : GoString} {r : Nat × List Event}
    (hr : Run E destDir r) (h : r.1 = exOk) : ∃ c, r.2 = successTrace E destDir c := by
  have hne : exTempFail ≠ exOk := by decide
  cases hr with
  | success c => exact ⟨c, rfl⟩
  | mkdirFail => exact absurd h hne
  | readFail c => exact absurd h hne
  | parseFail c => exact absurd h hne
  | extractFail done a rest tail c hatts htail => exact absurd h hne
  | promoteFail done fn rest tail c hfiles htail => exact absurd h hne

/-- A run that ends with `exTempFail` has a failed call other than the cleanup. -/
theorem Run.of_exTempFail {E : Env} {destDir : GoString} {r : Nat × List Event}
    (hr : Run E destDir r) (h : r.1 = exTempFail) :
    ∃ e ∈ r.2, e.ok = false ∧ e.call ≠ .RemoveAll (E.workDir destDir) := by
  cases hr with
  | mkdirFail => exact ⟨_, List.mem_singleton_self _, rfl, by simp⟩
  | readFail c => exact ⟨⟨.ReadMessage, false⟩, by simp, rfl, by simp⟩
  | parseFail c => exact ⟨⟨.ParseMIMEBody, false⟩, by simp, rfl, by simp⟩
  | extractFail done a rest tail c hatts htail =>
    obtain ⟨hall, e, he, hf⟩ := mem_extractFailures htail
    exact ⟨e, by simp [he], hf, (isExtract_facts (hall e he)).2.1 _⟩
  | promoteFail done fn rest tail c hfiles htail =>
    obtain ⟨hall, ⟨e, he, hf⟩, _, _⟩ := mem_promoteFailures htail
    exact ⟨e, by simp [he], hf, (isPromote_facts (hall e he)).2 _⟩
  | success c => exact absurd h (show exOk ≠ exTempFail by decide)

/-! ## Claims on `process` -/

/-- C6: `process` returns `exOk` (0) or `exTempFail` (75) and nothing else.  It returns 0
exactly when its trace is the one in which the workspace is created, the message read and
parsed, every attachment's file created, written and closed, and every file linked and its
workspace copy removed, all with success (the outcome of the cleanup does not count); it
returns 75 exactly when a call other than the cleanup failed. -/
theorem process_exit_code (E : Env) (destDir : GoString) :
    ((process E destDir).1 = 0 ∨ (process E destDir).1 = 75) ∧
    ((process E destDir).1 = 0 ↔ ∃ c, (process E destDir).2 = successTrace E destDir c) ∧
    ((process E destDir).1 = 75 ↔
      ∃ e ∈ (process E destDir).2, e.ok = false ∧ e.call ≠ .RemoveAll (E.workDir destDir)) := by
  have hr := process_run E destDir
  have hcases := hr.code_cases
  have hne : exOk ≠ exTempFail := by decide
  have hfail : (∃ e ∈ (process E destDir).2, e.ok = false ∧
      e.call ≠ .RemoveAll (E.workDir destDir)) → (process E destDir).1 = exTempFail := by
    rintro ⟨e, he, hf, hc⟩
    rcases hcases with h | h
    · obtain ⟨c, hs⟩ := hr.of_exOk h
      rw [hs] at he
      exact absurd (successTrace_ok he hf) hc
    · exact h
  refine ⟨hcases, ⟨hr.of_exOk, ?_⟩, ⟨hr.of_exTempFail, hfail⟩⟩
  rintro ⟨c, hs⟩
  rcases hcases with h | h
  · exact h
  · obtain ⟨e, he, hf, hc⟩ := hr.of_exTempFail h
    rw [hs] at he
    exact absurd (successTrace_ok he hf) hc

theorem dirExists_removeAll (path : GoString) (before : Bool) (tr : List Event) :
    dirExists path before (tr ++ [⟨.RemoveAll path, true⟩]) = false := by
  simp [dirExists, List.foldl_append]

/-- C7, as the claim states it, fails: when `os.Mkdir` fails, as it does when `destDir/jobId`
exists already, `process` returns 75 having made no other call, so no `os.RemoveAll` is
performed on that exit path, and a workspace directory that existed before still exists. -/
theorem cleanup_skipped_when_mkdir_fails :
    (process envMkdirFails (ascii "/d")).1 = 75 ∧
    (process envMkdirFails (ascii "/d")).2 =
      [⟨.Mkdir (envMkdirFails.workDir (ascii "/d")) 0o700, false⟩] ∧
    (∀ c : Bool, (⟨.RemoveAll (envMkdirFails.workDir (ascii "/d")), c⟩ : Event) ∉
      (process envMkdirFails (ascii "/d")).2) ∧
    dirExists (envMkdirFails.workDir (ascii "/d")) true (process envMkdirFails (ascii "/d")).2
      = true := by
  decide

/-- C7, amended: either `os.Mkdir` of the workspace fails, and `process` returns 75 having made
no other call; or it succeeds, and then on every exit path the last call of `process` is
`os.RemoveAll` of the workspace directory, made exactly once, and when that call succeeds
the workspace directory no longer exists. -/
theorem cleanup_on_every_path_after_mkdir (E : Env) (destDir : GoString) (before : Bool) :
    ((process E destDir).1 = 75 ∧
      (process E destDir).2 = [⟨.Mkdir (E.workDir destDir) 0o700, false⟩]) ∨
    ∃ body c,
      (process E destDir).2 =
        ⟨.Mkdir (E.workDir destDir) 0o700, true⟩ :: body ++
          [⟨.RemoveAll (E.workDir destDir), c⟩] ∧
      (∀ e ∈ body, ∀ p, e.call ≠ .RemoveAll p) ∧
      (c = true → dirExists (E.workDir destDir) before (process E destDir).2 = false) := by
  have hr := process_run E destDir
  have key : ∀ (body : List Event) (c : Bool),
      (process E destDir).2 = ⟨.Mkdir (E.workDir destDir) 0o700, true⟩ :: body ++
        [⟨.RemoveAll (E.workDir destDir), c⟩] →
      (∀ e ∈ body, ∀ p, e.call ≠ .RemoveAll p) →
      ∃ body c,
        (process E destDir).2 =
          ⟨.Mkdir (E.workDir destDir) 0o700, true⟩ :: body ++
            [⟨.RemoveAll (E.workDir destDir), c⟩] ∧
        (∀ e ∈ body, ∀ p, e.call ≠ .RemoveAll p) ∧
        (c = true → dirExists (E.workDir destDir) before (process E destDir).2 = false) := by
    intro body c h1 h2
    refine ⟨body, c, h1, h2, ?_⟩
    rintro rfl
    rw [h1]
    exact dirExists_removeAll _ _ _
  generalize process E destDir = r at hr key ⊢
  cases hr with
  | mkdirFail => left; exact ⟨rfl, rfl⟩
  | readFail c =>
    right
    refine key [⟨.ReadMessage, false⟩] c rfl ?_
    intro e he
    simp only [List.mem_singleton] at he
    subst he
    simp
  | parseFail c =>
    right
    refine key [⟨.ReadMessage, true⟩, ⟨.ParseMIMEBody, false⟩] c rfl ?_
    intro e he
    simp only [List.mem_cons, List.mem_singleton, List.not_mem_nil, or_false] at he
    rcases he with rfl | rfl <;> simp
  | extractFail done a rest tail c hatts htail =>
    right
    refine key ([⟨.ReadMessage, true⟩, ⟨.ParseMIMEBody, true⟩] ++
      extractOk E E.jobId (E.workDir destDir) 0 done ++ tail) c (by simp [header]) ?_
    intro e he
    simp only [List.mem_append, List.mem_cons, List.mem_singleton, List.not_mem_nil,
      or_false] at he
    rcases he with ((rfl | rfl) | h) | h
    · simp
    · simp
    · exact (isExtract_facts (mem_extractOk h).2).2.1
    · exact (isExtract_facts ((mem_extractFailures htail).1 e h)).2.1
  | promoteFail done fn rest tail c hfiles htail =>
    right
    refine key ([⟨.ReadMessage, true⟩, ⟨.ParseMIMEBody, true⟩] ++
      extractOk E E.jobId (E.workDir destDir) 0 E.Attachments ++
      promoteOk E (E.workDir destDir) destDir done ++ tail) c (by simp [header]) ?_
    intro e he
    simp only [List.mem_append, List.mem_cons, List.mem_singleton, List.not_mem_nil,
      or_false] at he
    rcases he with (((rfl | rfl) | h) | h) | h
    · simp
    · simp
    · exact (isExtract_facts (mem_extractOk h).2).2.1
    · exact (isPromote_facts (mem_promoteOk h).2).2
    · exact (isPromote_facts ((mem_promoteFailures htail).1 e h)).2
  | success c =>
    right
    refine key ([⟨.ReadMessage, true⟩, ⟨.ParseMIMEBody, true⟩] ++
      extractOk E E.jobId (E.workDir destDir) 0 E.Attachments ++
      promoteOk E (E.workDir destDir) destDir (fileNames E.jobId 0 E.Attachments)) c
      (by simp [header]) ?_
    intro e he
    simp only [List.mem_append, List.mem_cons, List.mem_singleton, List.not_mem_nil,
      or_false] at he
    rcases he with ((rfl | rfl) | h) | h
    · simp
    · simp
    · exact (isExtract_facts (mem_extractOk h).2).2.1
    · exact (isPromote_facts (mem_promoteOk h).2).2

theorem split_after_block {α : Type} {p : α → Prop} (A B pre post : List α) (e : α)
    (hA : ∀ x ∈ A, ¬ p x) (he : p e) (h : A ++ B = pre ++ e :: post) :
    ∃ mid, pre = A ++ mid := by
  induction A generalizing pre with
  | nil => exact ⟨pre, rfl⟩
  | cons a A ih =>
    cases pre with
    | nil =>
      simp only [List.cons_append, List.nil_append, List.cons.injEq] at h
      exact absurd (h.1 ▸ he) (hA a (List.mem_cons_self _ _))
    | cons b pre =>
      simp only [List.cons_append, List.cons.injEq] at h
      obtain ⟨mid, hmid⟩ := ih pre (fun x hx => hA x (List.mem_cons_of_mem _ hx)) h.2
      exact ⟨mid, by rw [h.1, hmid]; rfl⟩

theorem mem_linksOf {tr : List Event} {e : Event} {s t : GoString} (he : e ∈ tr)
    (hc : e.call = .Link s t) : (s, t) ∈ linksOf tr := by
  unfold linksOf
  rw [List.mem_filterMap]
  exact ⟨e, he, by rw [hc]⟩

/-- The links a run attempts are those of the first files of the list the extraction built, in
the order of that list. -/
theorem Run.linksOf_initial {E : Env} {destDir : GoString} {r : Nat × List Event}
    (hr : Run E destDir r) :
    linksOf r.2 <+: (fileNames E.jobId 0 E.Attachments).map fun fn =>
      (E.Join (E.workDir destDir) fn, E.Join destDir fn) := by
  have hh : linksOf (header (E.workDir destDir)) = [] :=
    linksOf_eq_nil fun e he => (mem_header he).2.2.2.2
  have hx : ∀ atts, linksOf (extractOk E E.jobId (E.workDir destDir) 0 atts) = [] :=
    fun atts => linksOf_eq_nil fun e he => (isExtract_facts (mem_extractOk he).2).2.2
  have hc : ∀ c, linksOf [(⟨.RemoveAll (E.workDir destDir), c⟩ : Event)] = [] := fun c => rfl
  cases hr with
  | mkdirFail => exact List.nil_prefix
  | readFail c => exact List.nil_prefix
  | parseFail c => exact List.nil_prefix
  | extractFail done a rest tail c hatts htail =>
    have ht : linksOf tail = [] :=
      linksOf_eq_nil fun e he => (isExtract_facts ((mem_extractFailures htail).1 e he)).2.2
    simp only [linksOf_append, hh, hx, ht, hc, List.append_nil]
    exact List.nil_prefix
  | promoteFail done fn rest tail c hfiles htail =>
    simp only [linksOf_append, hh, hx, hc, linksOf_promoteOk, (mem_promoteFailures htail).2.2.1,
      List.append_nil, List.nil_append, hfiles]
    exact ⟨rest.map fun fn => (E.Join (E.workDir destDir) fn, E.Join destDir fn), by simp⟩
  | success c =>
    simp only [linksOf_append, hh, hx, hc, linksOf_promoteOk, List.append_nil, List.nil_append]
    exact List.prefix_refl _

/-- C8: in every run, whatever stands in the trace before an attempted hard link begins with the
creation of the workspace, the reading and the parsing of the message, and the successful
create, write and close of the file of every attachment of the message; the link goes from
`workDir/fileName` to `destDir/fileName` for one of the file names built; and when a create,
write or close has failed, the trace has no link at all. -/
theorem link_only_after_extraction (E : Env) (destDir : GoString) :
    (∀ (pre : List Event) (e : Event) (post : List Event) (s t : GoString),
      (process E destDir).2 = pre ++ e :: post → e.call = .Link s t →
      (∃ mid, pre = header (E.workDir destDir) ++
        extractOk E E.jobId (E.workDir destDir) 0 E.Attachments ++ mid) ∧
      ∃ fn ∈ fileNames E.jobId 0 E.Attachments,
        s = E.Join (E.workDir destDir) fn ∧ t = E.Join destDir fn) ∧
    (∀ e ∈ (process E destDir).2, e.call.isExtract = true → e.ok = false →
      ∀ e' ∈ (process E destDir).2, ∀ s t, e'.call ≠ .Link s t) := by
  have hr := process_run E destDir
  have hlinks := hr.linksOf_initial
  generalize process E destDir = r at hr hlinks ⊢
  have hnolink : ∀ (e : Event) (s t : GoString), e.call = .Link s t →
      (∀ x ∈ header (E.workDir destDir) ++
        extractOk E E.jobId (E.workDir destDir) 0 E.Attachments, ¬ ∃ s t, x.call = .Link s t) := by
    intro e s t _ x hx
    rintro ⟨s', t', hc⟩
    rcases List.mem_append.mp hx with h | h
    · exact (mem_header h).2.2.2.2 s' t' hc
    · exact (isExtract_facts (mem_extractOk h).2).2.2 s' t' hc
  constructor
  · intro pre e post s t htr hc
    have hmem : e ∈ r.2 := by rw [htr]; simp
    constructor
    · cases hr with
      | mkdirFail =>
        simp only [List.mem_singleton] at hmem
        subst hmem
        cases hc
      | readFail c =>
        simp only [List.mem_cons, List.mem_singleton, List.not_mem_nil, or_false] at hmem
        rcases hmem with rfl | rfl | rfl <;> cases hc
      | parseFail c =>
        simp only [List.mem_cons, List.mem_singleton, List.not_mem_nil, or_false] at hmem
        rcases hmem with rfl | rfl | rfl | rfl <;> cases hc
      | extractFail done a rest tail c hatts htail =>
        simp only [List.mem_append, List.mem_singleton] at hmem
        rcases hmem with ((h | h) | h) | rfl
        · exact absurd hc ((mem_header h).2.2.2.2 s t)
        · exact absurd hc ((isExtract_facts (mem_extractOk h).2).2.2 s t)
        · exact absurd hc ((isExtract_facts ((mem_extractFailures htail).1 e h)).2.2 s t)
        · cases hc
      | promoteFail done fn rest tail c hfiles htail =>
        refine split_after_block _
          (promoteOk E (E.workDir destDir) destDir done ++ tail ++
            [⟨.RemoveAll (E.workDir destDir), c⟩]) pre post e
          (hnolink e s t hc) ⟨s, t, hc⟩ ?_
        rw [← htr]
        simp only [List.append_assoc]
      | success c =>
        refine split_after_block _
          (promoteOk E (E.workDir destDir) destDir (fileNames E.jobId 0 E.Attachments) ++
            [⟨.RemoveAll (E.workDir destDir), c⟩]) pre post e
          (hnolink e s t hc) ⟨s, t, hc⟩ ?_
        rw [← htr]
        simp only [List.append_assoc]
    · have h1 := hlinks.subset (mem_linksOf hmem hc)
      rw [List.mem_map] at h1
      obtain ⟨fn, hfn, heq⟩ := h1
      simp only [Prod.mk.injEq] at heq
      exact ⟨fn, hfn, heq.1.symm, heq.2.symm⟩
  · intro e he hx hf e' he' s t hc
    cases hr with
    | mkdirFail =>
      simp only [List.mem_singleton] at he'
      subst he'
      cases hc
    | readFail c =>
      simp only [List.mem_cons, List.mem_singleton, List.not_mem_nil, or_false] at he'
      rcases he' with rfl | rfl | rfl <;> cases hc
    | parseFail c =>
      simp only [List.mem_cons, List.mem_singleton, List.not_mem_nil, or_false] at he'
      rcases he' with rfl | rfl | rfl | rfl <;> cases hc
    | extractFail done a rest tail c hatts htail =>
      simp only [List.mem_append, List.mem_singleton] at he'
      rcases he' with ((h | h) | h) | rfl
      · exact (mem_header h).2.2.2.2 s t hc
      · exact (isExtract_facts (mem_extractOk h).2).2.2 s t hc
      · exact (isExtract_facts ((mem_extractFailures htail).1 e' h)).2.2 s t hc
      · cases hc
    | promoteFail done fn rest tail c hfiles htail =>
      simp only [List.mem_append, List.mem_singleton] at he
      rcases he with (((h | h) | h) | h) | rfl
      · rw [(mem_header h).2.1] at hx; cases hx
      · rw [(mem_extractOk h).1] at hf; cases hf
      · rw [(isPromote_facts (mem_promoteOk h).2).1] at hx; cases hx
      · rw [(isPromote_facts ((mem_promoteFailures htail).1 e h)).1] at hx; cases hx
      · cases hx
    | success c =>
      simp only [List.mem_append, List.mem_singleton] at he
      rcases he with ((h | h) | h) | rfl
      · rw [(mem_header h).2.1] at hx; cases hx
      · rw [(mem_extractOk h).1] at hf; cases hf
      · rw [(isPromote_facts (mem_promoteOk h).2).1] at hx; cases hx
      · cases hx

/-- C8 at the run in which every call succeeds: the first link is the tenth event of the trace,
after the create, write and close of both attachments. -/
theorem link_only_after_extraction_witness :
    (process envAllOk (ascii "/d")).2 =
      (process envAllOk (ascii "/d")).2.take 9 ++
        ⟨.Link (ascii "/d/20240101-010203-4321/20240101-010203-4321-0000-report.pdf")
          (ascii "/d/20240101-010203-4321-0000-report.pdf"), true⟩ ::
        (process envAllOk (ascii "/d")).2.drop 10 ∧
    (∃ mid, (process envAllOk (ascii "/d")).2.take 9 =
      header (envAllOk.workDir (ascii "/d")) ++
        extractOk envAllOk envAllOk.jobId (envAllOk.workDir (ascii "/d")) 0
          envAllOk.Attachments ++ mid) ∧
    ∃ fn ∈ fileNames envAllOk.jobId 0 envAllOk.Attachments,
      ascii "/d/20240101-010203-4321/20240101-010203-4321-0000-report.pdf" =
        envAllOk.Join (envAllOk.workDir (ascii "/d")) fn ∧
      ascii "/d/20240101-010203-4321-0000-report.pdf" = envAllOk.Join (ascii "/d") fn :=
  ⟨by decide,
    (link_only_after_extraction envAllOk (ascii "/d")).1
      ((process envAllOk (ascii "/d")).2.take 9)
      ⟨.Link (ascii "/d/20240101-010203-4321/20240101-010203-4321-0000-report.pdf")
        (ascii "/d/20240101-010203-4321-0000-report.pdf"), true⟩
      ((process envAllOk (ascii "/d")).2.drop 10)
      (ascii "/d/20240101-010203-4321/20240101-010203-4321-0000-report.pdf")
      (ascii "/d/20240101-010203-4321-0000-report.pdf") (by decide) rfl⟩

/-- C9: the hard links `process` attempts are, in order, those of the first files of the list
the extraction built, each from `workDir/fileName` to `destDir/fileName`.  When a link fails,
`process` returns 75 and its trace is: the creation of the workspace, the reading and
parsing, the complete extraction, the successful link and remove of the files before the
failing one, the failed link, and the cleanup of the workspace; so no later file is linked
and no call removes anything but the workspace. -/
theorem promotion_ordered_fail_fast (E : Env) (destDir : GoString) :
    (linksOf (process E destDir).2 <+:
      (fileNames E.jobId 0 E.Attachments).map fun fn =>
        (E.Join (E.workDir destDir) fn, E.Join destDir fn)) ∧
    (∀ s t : GoString, (⟨.Link s t, false⟩ : Event) ∈ (process E destDir).2 →
      (process E destDir).1 = 75 ∧
      ∃ done fn rest c,
        fileNames E.jobId 0 E.Attachments = done ++ fn :: rest ∧
        s = E.Join (E.workDir destDir) fn ∧ t = E.Join destDir fn ∧
        (process E destDir).2 =
          header (E.workDir destDir) ++
            extractOk E E.jobId (E.workDir destDir) 0 E.Attachments ++
            promoteOk E (E.workDir destDir) destDir done ++
            [⟨.Link s t, false⟩, ⟨.RemoveAll (E.workDir destDir), c⟩]) := by
  have hr := process_run E destDir
  refine ⟨hr.linksOf_initial, ?_⟩
  generalize process E destDir = r at hr ⊢
  intro s t hmem
  cases hr with
  | mkdirFail =>
    simp only [List.mem_singleton] at hmem
    cases hmem
  | readFail c =>
    simp only [List.mem_cons, List.mem_singleton, List.not_mem_nil, or_false] at hmem
    rcases hmem with h | h | h <;> cases h
  | parseFail c =>
    simp only [List.mem_cons, List.mem_singleton, List.not_mem_nil, or_false] at hmem
    rcases hmem with h | h | h | h <;> cases h
  | extractFail done a rest tail c hatts htail =>
    simp only [List.mem_append, List.mem_singleton] at hmem
    rcases hmem with ((h | h) | h) | h
    · exact absurd rfl ((mem_header h).2.2.2.2 s t)
    · exact absurd rfl ((isExtract_facts (mem_extractOk h).2).2.2 s t)
    · exact absurd rfl ((isExtract_facts ((mem_extractFailures htail).1 _ h)).2.2 s t)
    · cases h
  | promoteFail done fn rest tail c hfiles htail =>
    simp only [List.mem_append, List.mem_singleton] at hmem
    rcases hmem with (((h | h) | h) | h) | h
    · exact absurd rfl ((mem_header h).2.2.2.2 s t)
    · exact absurd rfl ((isExtract_facts (mem_extractOk h).2).2.2 s t)
    · have := (mem_promoteOk h).1
      cases this
    · obtain ⟨htl, hs, ht⟩ := (mem_promoteFailures htail).2.2.2 s t h
      subst hs ht
      refine ⟨rfl, done, fn, rest, c, hfiles, rfl, rfl, ?_⟩
      rw [htl]
      simp only [List.append_assoc, List.singleton_append]
    · cases h
  | success c =>
    simp only [List.mem_append, List.mem_singleton] at hmem
    rcases hmem with ((h | h) | h) | h
    · exact absurd rfl ((mem_header h).2.2.2.2 s t)
    · exact absurd rfl ((isExtract_facts (mem_extractOk h).2).2.2 s t)
    · have := (mem_promoteOk h).1
      cases this
    · cases h

/-- C9 at the run in which the link of the second file fails: the first file stays linked,
nothing follows the failed link but the cleanup of the workspace. -/
theorem promotion_ordered_fail_fast_witness :
    (⟨.Link (envSecondLinkFails.Join (envSecondLinkFails.workDir (ascii "/d"))
        (fileName envSecondLinkFails.jobId 1 []))
      (envSecondLinkFails.Join (ascii "/d") (fileName envSecondLinkFails.jobId 1 [])), false⟩ :
        Event) ∈ (process envSecondLinkFails (ascii "/d")).2 ∧
    (process envSecondLinkFails (ascii "/d")).1 = 75 ∧
    ∃ done fn rest c,
      fileNames envSecondLinkFails.jobId 0 envSecondLinkFails.Attachments = done ++ fn :: rest ∧
      envSecondLinkFails.Join (envSecondLinkFails.workDir (ascii "/d"))
        (fileName envSecondLinkFails.jobId 1 []) =
          envSecondLinkFails.Join (envSecondLinkFails.workDir (ascii "/d")) fn ∧
      envSecondLinkFails.Join (ascii "/d") (fileName envSecondLinkFails.jobId 1 []) =
        envSecondLinkFails.Join (ascii "/d") fn ∧
      (process envSecondLinkFails (ascii "/d")).2 =
        header (envSecondLinkFails.workDir (ascii "/d")) ++
          extractOk envSecondLinkFails envSecondLinkFails.jobId
            (envSecondLinkFails.workDir (ascii "/d")) 0 envSecondLinkFails.Attachments ++
          promoteOk envSecondLinkFails (envSecondLinkFails.workDir (ascii "/d")) (ascii "/d")
            done ++
          [⟨.Link (envSecondLinkFails.Join (envSecondLinkFails.workDir (ascii "/d"))
              (fileName envSecondLinkFails.jobId 1 []))
            (envSecondLinkFails.Join (ascii "/d") (fileName envSecondLinkFails.jobId 1 [])),
              false⟩,
            ⟨.RemoveAll (envSecondLinkFails.workDir (ascii "/d")), c⟩] :=
  ⟨by decide,
    (promotion_ordered_fail_fast envSecondLinkFails (ascii "/d")).2
      (envSecondLinkFails.Join (envSecondLinkFails.workDir (ascii "/d"))
        (fileName envSecondLinkFails.jobId 1 []))
      (envSecondLinkFails.Join (ascii "/d") (fileName envSecondLinkFails.jobId 1 []))
      (by decide)⟩

/-- C10, the failing input: one attachment whose `Write` fails.  `process` creates the file,
the write fails, and `process` returns 75 at once: the next and last call is the cleanup of
the workspace, and the file that was created is never closed. -/
theorem write_failure_leaves_file_open :
    (process envWriteFails (ascii "/d")).1 = 75 ∧
    (process envWriteFails (ascii "/d")).2 =
      [⟨.Mkdir (ascii "/d/20240101-010203-4321") 0o700, true⟩,
       ⟨.ReadMessage, true⟩,
       ⟨.ParseMIMEBody, true⟩,
       ⟨.Create (ascii "/d/20240101-010203-4321/20240101-010203-4321-0000-report.pdf"), true⟩,
       ⟨.Write (ascii "/d/20240101-010203-4321/20240101-010203-4321-0000-report.pdf")
         (ascii "A"), false⟩,
       ⟨.RemoveAll (ascii "/d/20240101-010203-4321"), true⟩] ∧
    (∀ c : Bool,
      (⟨.Close (ascii "/d/20240101-010203-4321/20240101-010203-4321-0000-report.pdf"), c⟩ :
        Event) ∉ (process envWriteFails (ascii "/d")).2) := by
  decide

end Detach
